import Mathlib

/-!
Verification of the zk-bbp claim-binding and verification protocol.

The development shallowly embeds the three evaluator variants of the
repository and the host-side commitment routine:

* src/host/src/main.rs           : commit_all_host (witness assembler side)
* src/methods/guest/src/bin/guest.rs : commit_all, sub_u256_be_saturating,
                                       ge_u256_vs_u128 and the pre/post-pair
                                       evaluator main
* src/methods/guest/src/bin/main.rs  : the single-balance evaluator variant
* src/guest/src/main.rs          : the minimal (variant 3) evaluator

Bytes are modelled as natural numbers below 256, byte sequences as lists,
and the machine arithmetic of the source (u8/u16/u32/u128 with wrapping or
saturating semantics) as Nat arithmetic with explicit reductions modulo the
relevant power of two.  Fallible evaluator runs return an Option: `none`
models a fatal assertion (abort, nothing emitted), `some r` models the
single emission of the result record r.
-/

set_option maxRecDepth 10000

/-- A list of naturals is a byte string when every entry is below 256. -/
def BytesLt (l : List Nat) : Prop := ∀ x ∈ l, x < 256

instance : DecidablePred BytesLt := fun l =>
  List.decidableBAll (fun x => x < 256) l

/-- Value of a little-endian byte list. -/
def valLE : List Nat → Nat
  | [] => 0
  | b :: r => b + 256 * valLE r

/-- Value of a big-endian byte list (most significant byte first), as used by
the 32-byte balance encodings of the source. -/
def valBE (l : List Nat) : Nat := valLE l.reverse

/-- Little-endian encoding of v into exactly n bytes (truncating above
256 ^ n, exactly as a Rust `as` cast would). -/
def natToLE : Nat → Nat → List Nat
  | 0, _ => []
  | n + 1, v => v % 256 :: natToLE n (v / 256)

/-- Big-endian encoding of v into exactly n bytes.  For n = 4 this is the
embedding of Rust u32::to_be_bytes applied to a length cast with `as u32`. -/
def natToBE (n v : Nat) : List Nat := (natToLE n v).reverse

theorem valLE_append (x y : List Nat) :
    valLE (x ++ y) = valLE x + 256 ^ x.length * valLE y := by
  induction x with
  | nil => simp [valLE]
  | cons a t ih =>
      simp [valLE, ih, List.length_cons, pow_succ]
      ring

theorem valLE_lt (l : List Nat) (h : BytesLt l) : valLE l < 256 ^ l.length := by
  induction l with
  | nil => simp [valLE]
  | cons a t ih =>
      have ha : a < 256 := h a (List.mem_cons_self a t)
      have ht : valLE t < 256 ^ t.length := ih (fun x hx => h x (List.mem_cons_of_mem a hx))
      simp only [valLE, List.length_cons, pow_succ]
      nlinarith

theorem valLE_eq_zero_iff (l : List Nat) : valLE l = 0 ↔ ∀ x ∈ l, x = 0 := by
  induction l with
  | nil => simp [valLE]
  | cons a t ih =>
      simp only [valLE, List.mem_cons]
      constructor
      · intro h
        have ha : a = 0 := by omega
        have ht : valLE t = 0 := by omega
        intro x hx
        rcases hx with hx | hx
        · exact hx ▸ ha
        · exact ih.mp ht x hx
      · intro h
        have ha : a = 0 := h a (Or.inl rfl)
        have ht : valLE t = 0 := ih.mpr (fun x hx => h x (Or.inr hx))
        simp [ha, ht]

theorem natToLE_length (n v : Nat) : (natToLE n v).length = n := by
  induction n generalizing v with
  | zero => simp [natToLE]
  | succ m ih => simp [natToLE, ih]

theorem natToLE_bytes (n v : Nat) : BytesLt (natToLE n v) := by
  induction n generalizing v with
  | zero => intro x hx; simp [natToLE] at hx
  | succ m ih =>
      intro x hx
      simp only [natToLE, List.mem_cons] at hx
      rcases hx with hx | hx
      · omega
      · exact ih (v / 256) x hx

theorem natToLE_valLE (l : List Nat) (h : BytesLt l) :
    natToLE l.length (valLE l) = l := by
  induction l with
  | nil => simp [natToLE]
  | cons a t ih =>
      have ha : a < 256 := h a (List.mem_cons_self a t)
      have h1 : (a + 256 * valLE t) % 256 = a := by omega
      have h2 : (a + 256 * valLE t) / 256 = valLE t := by omega
      simp only [List.length_cons, natToLE, valLE, h1, h2]
      exact congrArg (a :: ·) (ih (fun x hx => h x (List.mem_cons_of_mem a hx)))

theorem valBE_append (x y : List Nat) :
    valBE (x ++ y) = valBE x * 256 ^ y.length + valBE y := by
  simp only [valBE, List.reverse_append, valLE_append, List.length_reverse]
  ring

theorem valBE_lt (l : List Nat) (h : BytesLt l) : valBE l < 256 ^ l.length := by
  have := valLE_lt l.reverse (fun x hx => h x (List.mem_reverse.mp hx))
  simpa [valBE] using this

theorem valBE_eq_zero_iff (l : List Nat) : valBE l = 0 ↔ ∀ x ∈ l, x = 0 := by
  rw [valBE, valLE_eq_zero_iff]
  constructor
  · intro h x hx; exact h x (List.mem_reverse.mpr hx)
  · intro h x hx; exact h x (List.mem_reverse.mp hx)

theorem natToBE_length (n v : Nat) : (natToBE n v).length = n := by
  simp [natToBE, natToLE_length]

theorem natToBE_valBE (l : List Nat) (h : BytesLt l) :
    natToBE l.length (valBE l) = l := by
  have := natToLE_valLE l.reverse (fun x hx => h x (List.mem_reverse.mp hx))
  simp only [List.length_reverse] at this
  simp [natToBE, valBE, this]

/-!
SHA-256.  The source obtains SHA-256 from the sha2 crate on the host and
from risc0_zkvm::sha in the guests; the function itself is not part of the
repository, so it is modelled here concretely (FIPS 180-4) over byte lists,
with every 32-bit word operation reduced modulo 2 ^ 32 explicitly.
-/

/-- Reduce a word modulo 2 ^ 32. -/
def w32 (x : Nat) : Nat := x % 4294967296

/-- Right rotation of a 32-bit word (x is assumed below 2 ^ 32). -/
def rotr32 (n x : Nat) : Nat := x / 2 ^ n + x % 2 ^ n * 2 ^ (32 - n)

def bigSigma0 (x : Nat) : Nat := rotr32 2 x ^^^ rotr32 13 x ^^^ rotr32 22 x

def bigSigma1 (x : Nat) : Nat := rotr32 6 x ^^^ rotr32 11 x ^^^ rotr32 25 x

def smallSigma0 (x : Nat) : Nat := rotr32 7 x ^^^ rotr32 18 x ^^^ x / 2 ^ 3

def smallSigma1 (x : Nat) : Nat := rotr32 17 x ^^^ rotr32 19 x ^^^ x / 2 ^ 10

/-- Ch(e, f, g); the complement of e is taken inside 32 bits. -/
def chF (e f g : Nat) : Nat := (e &&& f) ^^^ ((4294967295 - e) &&& g)

def majF (a b c : Nat) : Nat := (a &&& b) ^^^ (a &&& c) ^^^ (b &&& c)

/-- The 64 SHA-256 round constants. -/
def K256 : List Nat :=
  [1116352408, 1899447441, 3049323471, 3921009573, 961987163,
   1508970993, 2453635748, 2870763221, 3624381080, 310598401, 607225278,
   1426881987, 1925078388, 2162078206, 2614888103, 3248222580,
   3835390401, 4022224774, 264347078, 604807628, 770255983, 1249150122,
   1555081692, 1996064986, 2554220882, 2821834349, 2952996808,
   3210313671, 3336571891, 3584528711, 113926993, 338241895, 666307205,
   773529912, 1294757372, 1396182291, 1695183700, 1986661051,
   2177026350, 2456956037, 2730485921, 2820302411, 3259730800,
   3345764771, 3516065817, 3600352804, 4094571909, 275423344, 430227734,
   506948616, 659060556, 883997877, 958139571, 1322822218, 1537002063,
   1747873779, 1955562222, 2024104815, 2227730452, 2361852424,
   2428436474, 2756734187, 3204031479, 3329325298]

/-- The initial SHA-256 hash state. -/
def H256init : List Nat :=
  [1779033703, 3144134277, 1013904242, 2773480762, 1359893119,
   2600822924, 528734635, 1541459225]

/-- Split a list into chunks of k elements; the first argument is fuel
(the list length suffices). -/
def chunkBy (k : Nat) : Nat → List Nat → List (List Nat)
  | _, [] => []
  | 0, _ => []
  | fuel + 1, l => l.take k :: chunkBy k fuel (l.drop k)

/-- Extend the 16 message words of a block to the 64-entry schedule. -/
def scheduleW (ws16 : List Nat) : List Nat :=
  (List.range 48).foldl
    (fun acc _ =>
      let n := acc.length
      acc ++ [w32 (smallSigma1 (acc.getD (n - 2) 0) + acc.getD (n - 7) 0 +
                   smallSigma0 (acc.getD (n - 15) 0) + acc.getD (n - 16) 0)])
    ws16

/-- One SHA-256 round on the eight-word working state. -/
def roundStep (st : List Nat) (kw : Nat × Nat) : List Nat :=
  match st with
  | [a, b, c, d, e, f, g, h] =>
      let t1 := w32 (h + bigSigma1 e + chF e f g + kw.1 + kw.2)
      let t2 := w32 (bigSigma0 a + majF a b c)
      [w32 (t1 + t2), a, b, c, w32 (d + t1), e, f, g]
  | _ => st

/-- Compress one 64-byte block into the running hash state. -/
def compress (h : List Nat) (block : List Nat) : List Nat :=
  let ws := scheduleW ((chunkBy 4 block.length block).map valBE)
  let st := (K256.zip ws).foldl roundStep h
  List.zipWith (fun x y => w32 (x + y)) h st

/-- SHA-256 padding: append 0x80, zeros to 56 mod 64, and the 8-byte
big-endian bit length. -/
def padMsg (msg : List Nat) : List Nat :=
  msg ++ 128 :: List.replicate ((119 - msg.length % 64) % 64) 0
      ++ natToBE 8 (msg.length * 8)

/-- SHA-256 of a byte list, producing the 32-byte big-endian digest. -/
def sha256 (msg : List Nat) : List Nat :=
  let padded := padMsg msg
  ((chunkBy 64 padded.length padded).foldl compress H256init).foldr
    (fun x acc => natToBE 4 x ++ acc) []

/-!
Big-endian fixed-width arithmetic, embedded from
src/methods/guest/src/bin/guest.rs (sub_u256_be_saturating, ge_u256_vs_u128;
the latter appears verbatim in src/methods/guest/src/bin/main.rs as well).
-/

/-- One iteration of the subtraction loop body of sub_u256_be_saturating:
av and bv are the bytes widened to u16, bin the incoming borrow.  The u16
wrapping subtraction, the conditional add of 1 <<< 8, and the final 0xff
mask of the source are rendered with explicit reductions modulo 65536 and
256.  Returns (output byte, outgoing borrow). -/
def subStep (av bv bin : Nat) : Nat × Nat :=
  if av < bv + bin then
    ((((av + 65536 - (bv + bin) % 65536) % 65536 + 256) % 65536) % 256, 1)
  else
    ((av + 65536 - (bv + bin) % 65536) % 65536 % 256, 0)

/-- The subtraction loop of sub_u256_be_saturating, written over
little-endian byte lists: the source iterates i = 31 down to 0, which is
exactly head-first traversal of the reversed arrays.  Returns the output
bytes (little-endian) and the final borrow. -/
def subBytesLE : List Nat → List Nat → Nat → List Nat × Nat
  | [], _, bin => ([], bin)
  | _, [], bin => ([], bin)
  | a :: as, b :: bs, bin =>
      ((subStep a b bin).1 :: (subBytesLE as bs (subStep a b bin).2).1,
       (subBytesLE as bs (subStep a b bin).2).2)

/-- The borrow value held at the start of each loop iteration (plus the
final borrow after the last iteration), in the order the source loop runs. -/
def borrowsLE : List Nat → List Nat → Nat → List Nat
  | [], _, bin => [bin]
  | _, [], bin => [bin]
  | a :: as, b :: bs, bin => bin :: borrowsLE as bs (subStep a b bin).2

/-- sub_u256_be_saturating from src/methods/guest/src/bin/guest.rs:
byte-wise borrowed subtraction of two 32-byte big-endian values; a borrow
surviving the most significant byte saturates the result to all zeros. -/
def sub_u256_be_saturating (a b : List Nat) : List Nat :=
  if (subBytesLE a.reverse b.reverse 0).2 ≠ 0 then List.replicate 32 0
  else (subBytesLE a.reverse b.reverse 0).1.reverse

/-- ge_u256_vs_u128 from src/methods/guest/src/bin/guest.rs (and, byte for
byte identical, from src/methods/guest/src/bin/main.rs): true if any of the
16 high bytes is non-zero, otherwise compare the low 16 bytes, read as a
big-endian u128, against the threshold inclusively. -/
def ge_u256_vs_u128 (a : List Nat) (thr : Nat) : Bool :=
  (a.take 16).any (fun b => b != 0) || decide (thr ≤ valBE (a.drop 16))

/-!
Commitment encodings.  Incremental hashing (sha2::Sha256 on the host,
risc0 sha::Impl in the pre/post guest) is modelled by accumulating the fed
bytes; finalize is sha256 of the accumulated message.
-/

/-- Hasher update: feed a chunk into the running hasher state. -/
def shaUpd (st chunk : List Nat) : List Nat := st ++ chunk

/-- The fresh hasher state (Sha256::new / sha::Impl::new). -/
def shaInit : List Nat := []

/-- The ASCII bytes of the domain tag "BBP". -/
def bbpTag : List Nat := [66, 66, 80]

/-- write_len from src/methods/guest/src/bin/guest.rs: feed the 4-byte
big-endian encoding of a u32 length into the hasher. -/
def write_len (st : List Nat) (n : Nat) : List Nat := shaUpd st (natToBE 4 n)

/-- commit_all from src/methods/guest/src/bin/guest.rs: the tagged,
length-prefixed commitment over pre_post, calldata, target code and asset
code, computed by incremental hashing. -/
def commit_all (pre_post calldata target_code asset_code : List Nat) : List Nat :=
  sha256 (shaUpd (write_len (shaUpd (write_len (shaUpd (write_len (shaUpd
    (write_len (shaUpd shaInit bbpTag) pre_post.length) pre_post)
    calldata.length) calldata) target_code.length) target_code)
    asset_code.length) asset_code)

/-- commit_all_host from src/host/src/main.rs: the host-side mirror of the
same commitment, via sha2::Sha256 update calls. -/
def commit_all_host (pre_post calldata target_code asset_code : List Nat) : List Nat :=
  sha256 (shaUpd (shaUpd (shaUpd (shaUpd (shaUpd (shaUpd (shaUpd (shaUpd
    (shaUpd shaInit bbpTag) (natToBE 4 pre_post.length)) pre_post)
    (natToBE 4 calldata.length)) calldata)
    (natToBE 4 target_code.length)) target_code)
    (natToBE 4 asset_code.length)) asset_code)

/-- The encoding rule exactly as the specification states it: sha256 of
"BBP" followed by each blob preceded by its 4-byte big-endian byte length,
in declared order (variant 2: the 64-byte pre and post pair first). -/
def bbpPrePostEncoding (pre_post calldata target_code asset_code : List Nat) : List Nat :=
  bbpTag ++ natToBE 4 pre_post.length ++ pre_post
    ++ natToBE 4 calldata.length ++ calldata
    ++ natToBE 4 target_code.length ++ target_code
    ++ natToBE 4 asset_code.length ++ asset_code

/-!
The pre/post-pair evaluator (src/methods/guest/src/bin/guest.rs, fn main)
and its public input and output records.
-/

/-- Public inputs of the pre/post-pair evaluator, as read by
src/methods/guest/src/bin/guest.rs and built by src/host/src/main.rs. -/
structure PublicInputs where
  threshold : Nat
  commitment : List Nat
  asset : List Nat
  target : List Nat
  selector : List Nat
  target_code_sha256 : List Nat
  asset_code_sha256 : List Nat
deriving Repr, DecidableEq

/-- Public outputs committed to the journal by the pre/post-pair
evaluator. -/
structure PublicOutputs where
  threshold : Nat
  loss_hi : List Nat
  loss_lo : List Nat
  loss_ge_threshold : Bool
  selector : List Nat
  asset : List Nat
  target : List Nat
deriving Repr, DecidableEq

/-- fn main of src/methods/guest/src/bin/guest.rs.  Each assert of the
source aborts the computation (none); only if every check passes is the
result record committed, once (some).  The checks appear in source order:
commitment, calldata length, selector, target code digest, asset code
digest. -/
def guestMain (pubin : PublicInputs)
    (pre_post calldata target_code asset_code : List Nat) : Option PublicOutputs :=
  if commit_all pre_post calldata target_code asset_code ≠ pubin.commitment then none
  else if calldata.length < 4 then none
  else if calldata.take 4 ≠ pubin.selector then none
  else if sha256 target_code ≠ pubin.target_code_sha256 then none
  else if sha256 asset_code ≠ pubin.asset_code_sha256 then none
  else
    some { threshold := pubin.threshold
           loss_hi := (sub_u256_be_saturating (pre_post.take 32) (pre_post.drop 32)).take 16
           loss_lo := (sub_u256_be_saturating (pre_post.take 32) (pre_post.drop 32)).drop 16
           loss_ge_threshold :=
             ge_u256_vs_u128 (sub_u256_be_saturating (pre_post.take 32) (pre_post.drop 32))
               pubin.threshold
           selector := pubin.selector
           asset := pubin.asset
           target := pubin.target }

/-!
The minimal (variant 3) evaluator, src/guest/src/main.rs, with the record
types declared at the top of that same file.
-/

/-- Public inputs of the minimal evaluator (src/guest/src/main.rs): three
20-byte identifiers and the u128 threshold.  There is no commitment field. -/
structure PublicInputsMin where
  target : List Nat
  sender : List Nat
  token : List Nat
  threshold : Nat
deriving Repr, DecidableEq

/-- Private inputs of the minimal evaluator (src/guest/src/main.rs). -/
structure PrivateInputsMin where
  calldata : List Nat
  pre_balance : Nat
  post_balance : Nat
deriving Repr, DecidableEq

/-- fn main of src/guest/src/main.rs: delta = pre_balance.saturating_sub
(post_balance) (u128 saturating subtraction is exactly truncated Nat
subtraction), assert delta > threshold, then commit the public inputs as
the journal.  The assert aborts (none); otherwise the echo of the public
inputs is emitted (some). -/
def guestMinimalMain (pub : PublicInputsMin) (priv : PrivateInputsMin) :
    Option PublicInputsMin :=
  if priv.pre_balance - priv.post_balance > pub.threshold then some pub else none

/-!
Correctness of the byte-wise borrowed subtraction.
-/

theorem subStep_spec (av bv bin : Nat) (ha : av < 256) (hb : bv < 256) (hbin : bin ≤ 1) :
    (subStep av bv bin).1 < 256 ∧ (subStep av bv bin).2 ≤ 1 ∧
    (subStep av bv bin).1 + bv + bin = av + 256 * (subStep av bv bin).2 := by
  unfold subStep
  split <;> simp only [] <;> omega

theorem subBytesLE_spec : ∀ (as bs : List Nat) (bin : Nat),
    as.length = bs.length → BytesLt as → BytesLt bs → bin ≤ 1 →
    (subBytesLE as bs bin).1.length = as.length ∧
    BytesLt (subBytesLE as bs bin).1 ∧
    (subBytesLE as bs bin).2 ≤ 1 ∧
    valLE (subBytesLE as bs bin).1 + valLE bs + bin
      = valLE as + (subBytesLE as bs bin).2 * 256 ^ as.length := by
  intro as
  induction as with
  | nil =>
      intro bs bin hlen _ _ hbin
      have : bs = [] := List.length_eq_zero.mp (by simpa using hlen.symm)
      subst this
      refine ⟨rfl, ?_, hbin, by simp [subBytesLE, valLE]⟩
      intro x hx; simp [subBytesLE] at hx
  | cons a tl ih =>
      intro bs bin hlen hba hbb hbin
      match bs with
      | [] => simp at hlen
      | b :: bt =>
        have hlen2 : tl.length = bt.length := by simpa using hlen
        have ha : a < 256 := hba a (List.mem_cons_self a tl)
        have hb : b < 256 := hbb b (List.mem_cons_self b bt)
        have hat : BytesLt tl := fun x hx => hba x (List.mem_cons_of_mem a hx)
        have hbt : BytesLt bt := fun x hx => hbb x (List.mem_cons_of_mem b hx)
        obtain ⟨hd, hb1, heq⟩ := subStep_spec a b bin ha hb hbin
        obtain ⟨ihlen, ihbytes, ihb, iheq⟩ := ih bt (subStep a b bin).2 hlen2 hat hbt hb1
        refine ⟨?_, ?_, ?_, ?_⟩
        · simp [subBytesLE, ihlen]
        · intro x hx
          simp only [subBytesLE, List.mem_cons] at hx
          rcases hx with hx | hx
          · omega
          · exact ihbytes x hx
        · simpa [subBytesLE] using ihb
        · have hpow : (256 : Nat) ^ (a :: tl).length = 256 * 256 ^ tl.length := by
            simp [List.length_cons, pow_succ]; ring
          simp only [subBytesLE, valLE, List.length_cons] at *
          rw [hpow]
          rcases Nat.le_one_iff_eq_zero_or_eq_one.mp ihb with h0 | h0 <;>
            rw [h0] at iheq ⊢ <;> omega

theorem subBytesLE_borrow_iff (as bs : List Nat) (bin : Nat)
    (hlen : as.length = bs.length) (hba : BytesLt as) (hbb : BytesLt bs) (hbin : bin ≤ 1) :
    ((subBytesLE as bs bin).2 = 1 ↔ valLE as < valLE bs + bin) := by
  obtain ⟨hl, hbytes, hb, heq⟩ := subBytesLE_spec as bs bin hlen hba hbb hbin
  have hout : valLE (subBytesLE as bs bin).1 < 256 ^ as.length := by
    have := valLE_lt (subBytesLE as bs bin).1 hbytes
    rwa [hl] at this
  have hpos : 0 < (256 : Nat) ^ as.length := Nat.pos_pow_of_pos _ (by omega)
  constructor
  · intro h1
    rw [h1] at heq
    omega
  · intro hlt
    rcases Nat.le_one_iff_eq_zero_or_eq_one.mp hb with h0 | h1
    · rw [h0] at heq; omega
    · exact h1

theorem sub_u256_be_saturating_spec (a b : List Nat)
    (h32a : a.length = 32) (h32b : b.length = 32)
    (hba : BytesLt a) (hbb : BytesLt b) :
    (valBE b ≤ valBE a →
      sub_u256_be_saturating a b = natToBE 32 (valBE a - valBE b)) ∧
    (valBE a < valBE b →
      sub_u256_be_saturating a b = List.replicate 32 0) := by
  have hra : BytesLt a.reverse := fun x hx => hba x (List.mem_reverse.mp hx)
  have hrb : BytesLt b.reverse := fun x hx => hbb x (List.mem_reverse.mp hx)
  have hlen : a.reverse.length = b.reverse.length := by
    simp [List.length_reverse, h32a, h32b]
  obtain ⟨hl, hbytes, hbor, heq⟩ :=
    subBytesLE_spec a.reverse b.reverse 0 hlen hra hrb (by omega)
  have hbiff := subBytesLE_borrow_iff a.reverse b.reverse 0 hlen hra hrb (by omega)
  have hva : valLE a.reverse = valBE a := rfl
  have hvb : valLE b.reverse = valBE b := rfl
  constructor
  · intro hle
    have hb0 : (subBytesLE a.reverse b.reverse 0).2 = 0 := by
      rcases Nat.le_one_iff_eq_zero_or_eq_one.mp hbor with h0 | h1
      · exact h0
      · exfalso; have := hbiff.mp h1; omega
    have hout : valLE (subBytesLE a.reverse b.reverse 0).1 = valBE a - valBE b := by
      rw [hb0] at heq; omega
    have hlout : (subBytesLE a.reverse b.reverse 0).1.length = 32 := by
      rw [hl, List.length_reverse, h32a]
    have henc : natToBE 32 (valBE a - valBE b)
        = (subBytesLE a.reverse b.reverse 0).1.reverse := by
      rw [← hout, natToBE, ← hlout, natToLE_valLE _ hbytes]
    rw [sub_u256_be_saturating, if_neg (by simp [hb0]), henc]
  · intro hlt
    have hb1 : (subBytesLE a.reverse b.reverse 0).2 = 1 := by
      apply hbiff.mpr; omega
    rw [sub_u256_be_saturating, if_pos (by simp [hb1])]

theorem borrowsLE_le_one : ∀ (as bs : List Nat) (bin : Nat),
    BytesLt as → BytesLt bs → bin ≤ 1 →
    ∀ x ∈ borrowsLE as bs bin, x ≤ 1 := by
  intro as
  induction as with
  | nil =>
      intro bs bin _ _ hbin x hx
      simp [borrowsLE] at hx
      omega
  | cons a tl ih =>
      intro bs bin hba hbb hbin x hx
      match bs with
      | [] =>
          simp [borrowsLE] at hx
          omega
      | b :: bt =>
          have ha : a < 256 := hba a (List.mem_cons_self a tl)
          have hb : b < 256 := hbb b (List.mem_cons_self b bt)
          have hat : BytesLt tl := fun y hy => hba y (List.mem_cons_of_mem a hy)
          have hbt : BytesLt bt := fun y hy => hbb y (List.mem_cons_of_mem b hy)
          obtain ⟨_, hstep, _⟩ := subStep_spec a b bin ha hb hbin
          simp only [borrowsLE, List.mem_cons] at hx
          rcases hx with hx | hx
          · omega
          · exact ih bt (subStep a b bin).2 hat hbt hstep x hx

/-!
Semantics of the threshold comparison.
-/

theorem take_drop_val (a : List Nat) (h32 : a.length = 32) :
    valBE a = valBE (a.take 16) * 2 ^ 128 + valBE (a.drop 16) := by
  have hsplit : a.take 16 ++ a.drop 16 = a := List.take_append_drop 16 a
  have hlen : (a.drop 16).length = 16 := by simp [List.length_drop, h32]
  calc valBE a = valBE (a.take 16 ++ a.drop 16) := by rw [hsplit]
    _ = valBE (a.take 16) * 256 ^ (a.drop 16).length + valBE (a.drop 16) :=
        valBE_append _ _
    _ = valBE (a.take 16) * 2 ^ 128 + valBE (a.drop 16) := by
        rw [hlen]; norm_num

theorem high_any_iff (a : List Nat) (h32 : a.length = 32) (hb : BytesLt a) :
    ((a.take 16).any (fun b => b != 0) = true ↔ 2 ^ 128 ≤ valBE a) := by
  have hdlen : (a.drop 16).length = 16 := by simp [List.length_drop, h32]
  have hdb : BytesLt (a.drop 16) := fun x hx => hb x (List.drop_subset 16 a hx)
  have hdlt : valBE (a.drop 16) < 2 ^ 128 := by
    have := valBE_lt (a.drop 16) hdb
    rw [hdlen] at this
    calc valBE (a.drop 16) < 256 ^ 16 := this
      _ = 2 ^ 128 := by norm_num
  have hval := take_drop_val a h32
  constructor
  · intro hany
    have : ¬ (∀ x ∈ a.take 16, x = 0) := by
      intro hall
      simp only [List.any_eq_true, bne_iff_ne] at hany
      obtain ⟨x, hx, hne⟩ := hany
      exact hne (hall x hx)
    have hpos : 0 < valBE (a.take 16) := by
      rcases Nat.eq_zero_or_pos (valBE (a.take 16)) with h0 | hp
      · exact absurd ((valBE_eq_zero_iff _).mp h0) this
      · exact hp
    calc (2 : Nat) ^ 128 = 1 * 2 ^ 128 + 0 := by ring
      _ ≤ valBE (a.take 16) * 2 ^ 128 + valBE (a.drop 16) := by
          apply Nat.add_le_add
          · exact Nat.mul_le_mul_right _ hpos
          · omega
      _ = valBE a := hval.symm
  · intro hge
    by_contra hany
    have hall : ∀ x ∈ a.take 16, x = 0 := by
      intro x hx
      by_contra hne
      exact hany (List.any_eq_true.mpr ⟨x, hx, by simpa using hne⟩)
    have h0 : valBE (a.take 16) = 0 := (valBE_eq_zero_iff _).mpr hall
    rw [hval, h0] at hge
    omega

theorem ge_u256_vs_u128_iff (a : List Nat) (thr : Nat)
    (h32 : a.length = 32) (hb : BytesLt a) :
    (ge_u256_vs_u128 a thr = true ↔ (2 ^ 128 ≤ valBE a ∨ thr ≤ valBE a)) := by
  have hval := take_drop_val a h32
  have hhi := high_any_iff a h32 hb
  rw [ge_u256_vs_u128, Bool.or_eq_true, decide_eq_true_eq]
  constructor
  · intro h
    rcases h with h | h
    · exact Or.inl (hhi.mp h)
    · by_cases hge : 2 ^ 128 ≤ valBE a
      · exact Or.inl hge
      · right
        have h0 : valBE (a.take 16) = 0 := by
          rcases Nat.eq_zero_or_pos (valBE (a.take 16)) with h0 | hp
          · exact h0
          · exfalso
            apply hge
            calc (2 : Nat) ^ 128 ≤ valBE (a.take 16) * 2 ^ 128 := by nlinarith
              _ ≤ valBE a := by omega
        omega
  · intro h
    rcases h with h | h
    · exact Or.inl (hhi.mpr h)
    · by_cases hany : (a.take 16).any (fun b => b != 0) = true
      · exact Or.inl hany
      · right
        have hall : ∀ x ∈ a.take 16, x = 0 := by
          intro x hx
          by_contra hne
          exact hany (List.any_eq_true.mpr ⟨x, hx, by simpa using hne⟩)
        have h0 : valBE (a.take 16) = 0 := (valBE_eq_zero_iff _).mpr hall
        omega

/-!
Claim theorems.
-/

/-- C1: for every 64-byte pre_post blob and arbitrary calldata, target and
asset bytecode, the commitment computed by the host (commit_all_host) and
the one recomputed inside the guest (commit_all) agree, and both equal
sha256 of "BBP" followed by each blob preceded by its 4-byte big-endian
byte length. -/
theorem commit_host_guest_spec_agree
    (pre_post calldata target_code asset_code : List Nat)
    (_hpp : pre_post.length = 64) :
    commit_all_host pre_post calldata target_code asset_code
      = commit_all pre_post calldata target_code asset_code ∧
    commit_all pre_post calldata target_code asset_code
      = sha256 (bbpPrePostEncoding pre_post calldata target_code asset_code) := by
  constructor <;>
    simp [commit_all_host, commit_all, write_len, shaUpd, shaInit,
          bbpPrePostEncoding, List.append_assoc]

/-- Witness for C1 at a concrete 64-byte pre and post pair. -/
theorem commit_host_guest_spec_agree_witness :
    commit_all_host (List.replicate 64 0) [1, 2, 3, 4] [96] [97]
      = commit_all (List.replicate 64 0) [1, 2, 3, 4] [96] [97] ∧
    commit_all (List.replicate 64 0) [1, 2, 3, 4] [96] [97]
      = sha256 (bbpPrePostEncoding (List.replicate 64 0) [1, 2, 3, 4] [96] [97]) :=
  commit_host_guest_spec_agree _ _ _ _ (by decide)

/-- C2: for 32-byte big-endian operands, sub_u256_be_saturating returns the
32-byte big-endian encoding of pre minus post when pre is at least post,
and the all-zero 32-byte string when pre is below post (saturation). -/
theorem sub_u256_be_saturating_correct (a b : List Nat)
    (h32a : a.length = 32) (h32b : b.length = 32)
    (hba : BytesLt a) (hbb : BytesLt b) :
    sub_u256_be_saturating a b
      = if valBE b ≤ valBE a then natToBE 32 (valBE a - valBE b)
        else List.replicate 32 0 := by
  obtain ⟨hyes, hno⟩ := sub_u256_be_saturating_spec a b h32a h32b hba hbb
  by_cases hle : valBE b ≤ valBE a
  · rw [if_pos hle]; exact hyes hle
  · rw [if_neg hle]; exact hno (by omega)

/-- Witness for C2 at pre = 5000, post = 3000 (Scenario A of the spec). -/
theorem sub_u256_be_saturating_correct_witness :
    sub_u256_be_saturating (natToBE 32 5000) (natToBE 32 3000)
      = if valBE (natToBE 32 3000) ≤ valBE (natToBE 32 5000)
        then natToBE 32 (valBE (natToBE 32 5000) - valBE (natToBE 32 3000))
        else List.replicate 32 0 :=
  sub_u256_be_saturating_correct _ _ (by decide) (by decide) (by decide) (by decide)

/-- C3: ge_u256_vs_u128 returns true whenever one of the 16 high bytes is
non-zero (equivalently, whenever the loss is at least 2 ^ 128), regardless
of the threshold; otherwise it returns true exactly when the low 16 bytes,
read as a big-endian unsigned 128-bit integer, are at least the threshold
(inclusive comparison). -/
theorem ge_u256_vs_u128_correct (a : List Nat) (thr : Nat)
    (h32 : a.length = 32) (hb : BytesLt a) :
    ((a.take 16).any (fun b => b != 0) = true → ge_u256_vs_u128 a thr = true) ∧
    ((a.take 16).any (fun b => b != 0) = true ↔ 2 ^ 128 ≤ valBE a) ∧
    ((a.take 16).any (fun b => b != 0) = false →
      (ge_u256_vs_u128 a thr = true ↔ thr ≤ valBE (a.drop 16))) := by
  refine ⟨?_, high_any_iff a h32 hb, ?_⟩
  · intro h
    simp [ge_u256_vs_u128, h]
  · intro h
    simp [ge_u256_vs_u128, h]

/-- Witness for C3 at a loss with non-zero high half and huge threshold,
checked against the concrete comparison result. -/
theorem ge_u256_vs_u128_correct_witness :
    (((natToBE 32 (2 ^ 200)).take 16).any (fun b => b != 0) = true →
      ge_u256_vs_u128 (natToBE 32 (2 ^ 200)) (2 ^ 128 - 1) = true) ∧
    (((natToBE 32 (2 ^ 200)).take 16).any (fun b => b != 0) = true ↔
      2 ^ 128 ≤ valBE (natToBE 32 (2 ^ 200))) ∧
    (((natToBE 32 (2 ^ 200)).take 16).any (fun b => b != 0) = false →
      (ge_u256_vs_u128 (natToBE 32 (2 ^ 200)) (2 ^ 128 - 1) = true ↔
        2 ^ 128 - 1 ≤ valBE ((natToBE 32 (2 ^ 200)).drop 16))) :=
  ge_u256_vs_u128_correct _ _ (by decide) (by decide)

/-- C4: the pre/post-pair evaluator emits its result record exactly once
and only when every binding check passes: matching recomputed commitment,
calldata at least 4 bytes, leading 4 calldata bytes equal to the declared
selector, and matching target and asset code digests; if any check fails
the run aborts with no emission (none). -/
theorem guestMain_emits_iff (pubin : PublicInputs)
    (pre_post calldata target_code asset_code : List Nat) :
    (guestMain pubin pre_post calldata target_code asset_code).isSome = true ↔
      (commit_all pre_post calldata target_code asset_code = pubin.commitment ∧
       4 ≤ calldata.length ∧
       calldata.take 4 = pubin.selector ∧
       sha256 target_code = pubin.target_code_sha256 ∧
       sha256 asset_code = pubin.asset_code_sha256) := by
  by_cases h1 : commit_all pre_post calldata target_code asset_code = pubin.commitment
  · by_cases h2 : calldata.length < 4
    · simp [guestMain, h1, h2]
    · by_cases h3 : calldata.take 4 = pubin.selector
      · by_cases h4 : sha256 target_code = pubin.target_code_sha256
        · by_cases h5 : sha256 asset_code = pubin.asset_code_sha256
          · simp [guestMain, h1, h2, h3, h4, h5]
            omega
          · simp [guestMain, h1, h2, h3, h4, h5]
        · simp [guestMain, h1, h2, h3, h4]
      · simp [guestMain, h1, h2, h3]
  · simp [guestMain, h1]

/-- C7: the threshold comparison is monotonic in the loss for a fixed
threshold: increasing the loss as an unsigned 256-bit value never turns a
true comparison false. -/
theorem ge_u256_vs_u128_monotone (a b : List Nat) (thr : Nat)
    (h32a : a.length = 32) (h32b : b.length = 32)
    (hba : BytesLt a) (hbb : BytesLt b)
    (hle : valBE a ≤ valBE b) (h : ge_u256_vs_u128 a thr = true) :
    ge_u256_vs_u128 b thr = true := by
  rw [ge_u256_vs_u128_iff a thr h32a hba] at h
  rw [ge_u256_vs_u128_iff b thr h32b hbb]
  rcases h with h | h
  · exact Or.inl (le_trans h hle)
  · exact Or.inr (le_trans h hle)

/-- Witness for C7 at losses 5 and 7 with threshold 5. -/
theorem ge_u256_vs_u128_monotone_witness :
    ge_u256_vs_u128 (natToBE 32 7) 5 = true :=
  ge_u256_vs_u128_monotone (natToBE 32 5) (natToBE 32 7) 5
    (by decide) (by decide) (by decide) (by decide) (by decide) (by decide)

/-- C9: with a zero threshold the comparison is true for every loss value,
the all-zero loss included; only a positive threshold can make the
comparison of a zero loss false. -/
theorem ge_u256_vs_u128_zero_threshold :
    (∀ a, ge_u256_vs_u128 a 0 = true) ∧
    (∀ thr, 0 < thr → ge_u256_vs_u128 (List.replicate 32 0) thr = false) := by
  constructor
  · intro a
    simp [ge_u256_vs_u128]
  · intro thr hpos
    have h1 : ((List.replicate 32 0).take 16).any (fun b => b != 0) = false := by
      decide
    have h0 : valBE ((List.replicate 32 0).drop 16) = 0 := by decide
    have h2 : ¬ thr ≤ 0 := by omega
    rw [ge_u256_vs_u128, h1, h0]
    simp [h2]

/-- Witness for C9: zero threshold accepted on the all-zero loss, positive
threshold rejected on it. -/
theorem ge_u256_vs_u128_zero_threshold_witness :
    ge_u256_vs_u128 (List.replicate 32 0) 0 = true ∧
    ge_u256_vs_u128 (List.replicate 32 0) 5 = false :=
  ⟨ge_u256_vs_u128_zero_threshold.1 (List.replicate 32 0),
   ge_u256_vs_u128_zero_threshold.2 5 (by decide)⟩

/-- C10: sub_u256_be_saturating is total on 32-byte inputs and none of its
intermediate machine operations can trap: every borrow reached in the loop
is 0 or 1, every u16 sum of a subtrahend byte with the borrow stays far
below 65536, and every emitted byte fits in a u8. -/
theorem sub_u256_be_saturating_total (a b : List Nat)
    (h32a : a.length = 32) (h32b : b.length = 32)
    (hba : BytesLt a) (hbb : BytesLt b) :
    (∀ br ∈ borrowsLE a.reverse b.reverse 0, br ≤ 1) ∧
    (∀ p ∈ List.zip b.reverse (borrowsLE a.reverse b.reverse 0),
       p.1 + p.2 < 65536) ∧
    BytesLt (sub_u256_be_saturating a b) ∧
    (sub_u256_be_saturating a b).length = 32 := by
  have hra : BytesLt a.reverse := fun x hx => hba x (List.mem_reverse.mp hx)
  have hrb : BytesLt b.reverse := fun x hx => hbb x (List.mem_reverse.mp hx)
  have hlen : a.reverse.length = b.reverse.length := by
    simp [List.length_reverse, h32a, h32b]
  have hborrow := borrowsLE_le_one a.reverse b.reverse 0 hra hrb (by omega)
  obtain ⟨hl, hbytes, _, _⟩ :=
    subBytesLE_spec a.reverse b.reverse 0 hlen hra hrb (by omega)
  refine ⟨hborrow, ?_, ?_, ?_⟩
  · rintro ⟨x, y⟩ hp
    obtain ⟨hp1, hp2⟩ := List.of_mem_zip hp
    have hx : x < 256 := hrb x hp1
    have hy : y ≤ 1 := hborrow y hp2
    simp only []
    omega
  · rw [sub_u256_be_saturating]
    split
    · intro x hx
      have := List.eq_of_mem_replicate hx
      omega
    · intro x hx
      exact hbytes x (List.mem_reverse.mp hx)
  · rw [sub_u256_be_saturating]
    split
    · simp
    · rw [List.length_reverse, hl, List.length_reverse, h32a]

/-- Witness for C10 at a borrowing pair of concrete operands. -/
theorem sub_u256_be_saturating_total_witness :
    (∀ br ∈ borrowsLE (natToBE 32 3000).reverse (natToBE 32 5000).reverse 0,
       br ≤ 1) ∧
    (∀ p ∈ List.zip (natToBE 32 5000).reverse
         (borrowsLE (natToBE 32 3000).reverse (natToBE 32 5000).reverse 0),
       p.1 + p.2 < 65536) ∧
    BytesLt (sub_u256_be_saturating (natToBE 32 3000) (natToBE 32 5000)) ∧
    (sub_u256_be_saturating (natToBE 32 3000) (natToBE 32 5000)).length = 32 :=
  sub_u256_be_saturating_total _ _ (by decide) (by decide) (by decide) (by decide)

/-- Modelled from the spec: variant 3 is specified to commit to the full
witness blob with digest = Hash(witness_blob), no "BBP" tag and no length
prefixing.  The minimal evaluator's witness consists of the calldata and
the two u128 balances, serialized here as calldata followed by the two
16-byte big-endian balances.  What is missing from the source: the minimal
evaluator of src/guest/src/main.rs never serializes or hashes any witness
and its public inputs carry no commitment, so this digest computation has
no counterpart in its code. -/
def minimalWitnessBlob (priv : PrivateInputsMin) : List Nat :=
  priv.calldata ++ natToBE 16 priv.pre_balance ++ natToBE 16 priv.post_balance

/-- Counterexample to C5: two runs of the minimal evaluator that share all
public inputs but carry witness blobs with different digests both emit a
result.  Had the evaluator recomputed digest = Hash(witness_blob) and
asserted it equal to a commitment declared in the (shared) public input
before emitting, at most one of the two digests could have matched, so at
least one run would have aborted.  The minimal evaluator performs no such
check. -/
theorem minimal_no_commitment_check_counterexample :
    guestMinimalMain
        ⟨List.replicate 20 0, List.replicate 20 0, List.replicate 20 0, 0⟩
        ⟨[], 1, 0⟩
      = some ⟨List.replicate 20 0, List.replicate 20 0, List.replicate 20 0, 0⟩ ∧
    guestMinimalMain
        ⟨List.replicate 20 0, List.replicate 20 0, List.replicate 20 0, 0⟩
        ⟨[7], 1, 0⟩
      = some ⟨List.replicate 20 0, List.replicate 20 0, List.replicate 20 0, 0⟩ ∧
    sha256 (minimalWitnessBlob ⟨[], 1, 0⟩)
      ≠ sha256 (minimalWitnessBlob ⟨[7], 1, 0⟩) := by
  refine ⟨by decide, by decide, by decide⟩

/-- C5 as amended: in the minimal (variant 3) claim shape the evaluator
performs no commitment recomputation and no commitment check — its public
inputs carry no commitment — and it emits its result, the echo of the
public inputs, exactly when pre_balance.saturating_sub(post_balance)
exceeds the threshold strictly, identically for any two witnesses that
agree on the balances, whatever their digests. -/
theorem minimal_no_commitment_check (pub : PublicInputsMin)
    (p1 p2 : PrivateInputsMin)
    (hpre : p1.pre_balance = p2.pre_balance)
    (hpost : p1.post_balance = p2.post_balance) :
    guestMinimalMain pub p1 = guestMinimalMain pub p2 ∧
    (guestMinimalMain pub p1 = some pub ↔
      pub.threshold < p1.pre_balance - p1.post_balance) := by
  constructor
  · rw [guestMinimalMain, guestMinimalMain, hpre, hpost]
  · by_cases h : pub.threshold < p1.pre_balance - p1.post_balance
    · simp [guestMinimalMain, h]
    · simp [guestMinimalMain, h]

/-- Witness for the amended C5 at witnesses with distinct calldata. -/
theorem minimal_no_commitment_check_witness :
    guestMinimalMain ⟨[], [], [], 10⟩ ⟨[1, 2], 100, 50⟩
      = guestMinimalMain ⟨[], [], [], 10⟩ ⟨[3], 100, 50⟩ ∧
    (guestMinimalMain ⟨[], [], [], 10⟩ ⟨[1, 2], 100, 50⟩
      = some ⟨[], [], [], 10⟩ ↔ 10 < 100 - 50) :=
  minimal_no_commitment_check ⟨[], [], [], 10⟩ ⟨[1, 2], 100, 50⟩ ⟨[3], 100, 50⟩
    (by decide) (by decide)

/-- C6: the minimal evaluator is the strict-comparison variant: it emits
exactly when the saturating u128 delta strictly exceeds the threshold and
aborts on exact equality, whereas the byte-array variants decide the same
question through ge_u256_vs_u128, whose semantics on any valid 32-byte
loss is the inclusive comparison (true exactly when the loss reaches
2 ^ 128 or is at least the threshold). -/
theorem minimal_strict_vs_byte_inclusive (pub : PublicInputsMin)
    (priv : PrivateInputsMin) (a : List Nat) (thr : Nat)
    (h32 : a.length = 32) (hb : BytesLt a) :
    ((guestMinimalMain pub priv).isSome = true ↔
      pub.threshold < priv.pre_balance - priv.post_balance) ∧
    (priv.pre_balance - priv.post_balance = pub.threshold →
      guestMinimalMain pub priv = none) ∧
    (ge_u256_vs_u128 a thr = true ↔ (2 ^ 128 ≤ valBE a ∨ thr ≤ valBE a)) := by
  refine ⟨?_, ?_, ge_u256_vs_u128_iff a thr h32 hb⟩
  · by_cases h : pub.threshold < priv.pre_balance - priv.post_balance
    · simp [guestMinimalMain, h]
    · simp [guestMinimalMain, h]
  · intro he
    rw [guestMinimalMain, if_neg]
    omega

/-- Witness for C6 at a run whose delta equals the threshold exactly: the
minimal variant aborts there, while the byte comparison at the same
boundary is characterized as inclusive. -/
theorem minimal_strict_vs_byte_inclusive_witness :
    ((guestMinimalMain ⟨[], [], [], 2000⟩ ⟨[], 5000, 3000⟩).isSome = true ↔
      (2000 : Nat) < 5000 - 3000) ∧
    ((5000 : Nat) - 3000 = 2000 →
      guestMinimalMain ⟨[], [], [], 2000⟩ ⟨[], 5000, 3000⟩ = none) ∧
    (ge_u256_vs_u128 (natToBE 32 2000) 2000 = true ↔
      (2 ^ 128 ≤ valBE (natToBE 32 2000) ∨ 2000 ≤ valBE (natToBE 32 2000))) :=
  minimal_strict_vs_byte_inclusive ⟨[], [], [], 2000⟩ ⟨[], 5000, 3000⟩
    (natToBE 32 2000) 2000 (by decide) (by decide)

/-- Counterexample to C8: two runs of the minimal evaluator agreeing on
threshold, pre_balance and post_balance but differing in the target field
both accept, yet emit different journals — the emitted journal echoes the
full public inputs, so it does not depend only on the threshold and the
balances. -/
theorem minimal_journal_counterexample :
    (⟨List.replicate 20 0, List.replicate 20 0, List.replicate 20 0, 0⟩
        : PublicInputsMin).threshold
      = (⟨List.replicate 20 1, List.replicate 20 0, List.replicate 20 0, 0⟩
        : PublicInputsMin).threshold ∧
    guestMinimalMain
        ⟨List.replicate 20 0, List.replicate 20 0, List.replicate 20 0, 0⟩
        ⟨[], 5, 1⟩
      = some ⟨List.replicate 20 0, List.replicate 20 0, List.replicate 20 0, 0⟩ ∧
    guestMinimalMain
        ⟨List.replicate 20 1, List.replicate 20 0, List.replicate 20 0, 0⟩
        ⟨[], 5, 1⟩
      = some ⟨List.replicate 20 1, List.replicate 20 0, List.replicate 20 0, 0⟩ ∧
    (⟨List.replicate 20 0, List.replicate 20 0, List.replicate 20 0, 0⟩
        : PublicInputsMin)
      ≠ ⟨List.replicate 20 1, List.replicate 20 0, List.replicate 20 0, 0⟩ := by
  refine ⟨by decide, by decide, by decide, by decide⟩

/-- C8 as amended: in the minimal variant the accept/abort decision
depends only on the threshold and the pre/post balances — two runs that
agree on those but differ arbitrarily in calldata, target, sender and
token have identical outcomes, and no selector, bytecode-digest or
commitment check touches the calldata — while the journal emitted on
acceptance is exactly the echoed public inputs, independent of every
private input. -/
theorem minimal_decision_noninterference (pub1 pub2 : PublicInputsMin)
    (p1 p2 : PrivateInputsMin)
    (ht : pub1.threshold = pub2.threshold)
    (hpre : p1.pre_balance = p2.pre_balance)
    (hpost : p1.post_balance = p2.post_balance) :
    ((guestMinimalMain pub1 p1).isSome = true ↔
      (guestMinimalMain pub2 p2).isSome = true) ∧
    (∀ out, guestMinimalMain pub1 p1 = some out → out = pub1) := by
  constructor
  · have h2 : pub2.threshold < p2.pre_balance - p2.post_balance ↔
        pub1.threshold < p1.pre_balance - p1.post_balance := by
      rw [ht, hpre, hpost]
    by_cases h : pub1.threshold < p1.pre_balance - p1.post_balance
    · simp [guestMinimalMain, h, h2.mpr h]
    · have hn : ¬ pub2.threshold < p2.pre_balance - p2.post_balance :=
        fun hx => h (h2.mp hx)
      simp [guestMinimalMain, h, hn]
  · intro out hout
    by_cases h : pub1.threshold < p1.pre_balance - p1.post_balance
    · rw [guestMinimalMain, if_pos h] at hout
      exact (Option.some_inj.mp hout).symm
    · rw [guestMinimalMain, if_neg h] at hout
      exact absurd hout (by simp)

/-- Witness for the amended C8 across runs that differ in every field the
decision must ignore. -/
theorem minimal_decision_noninterference_witness :
    ((guestMinimalMain ⟨[4], [5], [6], 30⟩ ⟨[9, 9], 100, 60⟩).isSome = true ↔
      (guestMinimalMain ⟨[7], [8], [9], 30⟩ ⟨[], 100, 60⟩).isSome = true) ∧
    (∀ out, guestMinimalMain ⟨[4], [5], [6], 30⟩ ⟨[9, 9], 100, 60⟩ = some out →
      out = ⟨[4], [5], [6], 30⟩) :=
  minimal_decision_noninterference ⟨[4], [5], [6], 30⟩ ⟨[7], [8], [9], 30⟩
    ⟨[9, 9], 100, 60⟩ ⟨[], 100, 60⟩ (by decide) (by decide) (by decide)
